import Mathlib

/-!
Shallow embedding of `estimator/reduction.py` (lattice-estimator): cost
estimates for lattice reduction.  Sage reals (`RR`) are modelled by `ℝ`,
sage integers by `ℤ`/`ℕ`, optional arguments by `Option`, Python's
`raise`/`KeyError` by `Option`-valued results, and the two unbounded
`while` loops of `_beta_simple` by fuel-indexed recursion (fuel
exhaustion returns `none`; termination theorems show some fuel always
suffices).  The external bracketing root-finder `sage.all.find_root`
(an external interface per the spec) is modelled by its contract: a
parameter `rf : Option ℝ` standing for the outcome of the call, `some r`
a converged result, `none` the distinct failure signal.
-/

open Real

noncomputable section

namespace ReductionCost

/-- The closed-form root-Hermite factor used by `_delta` for `β > 40`:
`RR(beta / (2 * pi * e) * (pi * beta) ** (1 / beta)) ** (1 / (2 * (beta - 1)))`. -/
def closedForm (beta : ℝ) : ℝ :=
  (beta / (2 * π * exp 1) * (π * beta) ^ ((1 : ℝ) / beta)) ^ ((1 : ℝ) / (2 * (beta - 1)))

/-- `ReductionCost._delta`: compute δ from block size β without enforcing β ∈ ZZ.
The nested conditionals unroll the loop over the table
`small = ((2,1.02190),(5,1.01862),(10,1.01616),(15,1.01485),(20,1.01420),(25,1.01342),(28,1.01331),(40,1.01295))`,
which returns `small[i-1][1]` for the first `i ≥ 1` with `small[i][0] > beta`. -/
def _delta (beta : ℝ) : ℝ :=
  if beta ≤ 2 then 1.0219
  else if beta < 40 then
    (if 5 > beta then 1.02190
     else if 10 > beta then 1.01862
     else if 15 > beta then 1.01616
     else if 20 > beta then 1.01485
     else if 25 > beta then 1.01420
     else if 28 > beta then 1.01342
     else 1.01331)
  else if beta = 40 then 1.01295
  else closedForm beta

/-- `ReductionCost.delta`: compute root-Hermite factor δ from block size β
(`beta = ZZ(round(beta))` then `_delta`). -/
def delta (beta : ℝ) : ℝ := _delta ((round beta : ℤ) : ℝ)

/-- First loop of `_beta_simple`: `while _delta(2*beta) > delta: beta *= 2`,
with explicit fuel. -/
def dblLoop (d : ℝ) : ℕ → ℤ → Option ℤ
  | 0, _ => none
  | fuel + 1, b => if d < _delta ((2 * b : ℤ) : ℝ) then dblLoop d fuel (2 * b) else some b

/-- Second loop of `_beta_simple`: `while _delta(beta + 10) > delta: beta += 10`,
with explicit fuel. -/
def tenLoop (d : ℝ) : ℕ → ℤ → Option ℤ
  | 0, _ => none
  | fuel + 1, b => if d < _delta ((b + 10 : ℤ) : ℝ) then tenLoop d fuel (b + 10) else some b

/-- Third loop of `_beta_simple`: `while True: if _delta(beta) < delta: break; beta += 1`,
with explicit fuel. -/
def oneLoop (d : ℝ) : ℕ → ℤ → Option ℤ
  | 0, _ => none
  | fuel + 1, b => if _delta ((b : ℤ) : ℝ) < d then some b else oneLoop d fuel (b + 1)

/-- `ReductionCost._beta_simple`: the guaranteed-terminating fallback search
starting at `beta = ZZ(40)`, as the composition of its three loops. -/
def _beta_simple (fuel : ℕ) (d : ℝ) : Option ℤ :=
  (dblLoop d fuel 40).bind fun b => (tenLoop d fuel b).bind fun b' => oneLoop d fuel b'

/-- `ReductionCost._beta_find_root`: `beta = ZZ(40); if _delta(beta) < delta: return beta`,
then `find_root(lambda beta: RR(_delta(beta) - delta), 40, 2**16, maxiter=500)` with
`beta = ceil(beta - 1e-8)` on success and `_beta_simple(delta)` on `RuntimeError`.
The external `find_root` call is modelled by its outcome `rf`. -/
def _beta_find_root (rf : Option ℝ) (fuel : ℕ) (d : ℝ) : Option ℤ :=
  if _delta ((40 : ℤ) : ℝ) < d then some 40
  else
    match rf with
    | some r => some ⌈r - 1e-8⌉
    | none => _beta_simple fuel d

/-- `ReductionCost.beta`: estimate required block size β for a given
root-Hermite factor δ; delegates to `_beta_find_root`. -/
def beta (rf : Option ℝ) (fuel : ℕ) (d : ℝ) : Option ℤ := _beta_find_root rf fuel d

/-- `ReductionCost.svp_repeat`: number of SVP calls in BKZ-β
(`8*d` if `beta < d` else `1`). -/
def svp_repeat (beta d : ℕ) : ℕ := if beta < d then 8 * d else 1

/-- `ReductionCost.LLL`: runtime estimation for the LLL algorithm:
`d**3 * B**2` if `B` (Python truthiness: absent or zero falls back), else `d**3`. -/
def LLL (d : ℕ) (B : Option ℕ) : ℕ :=
  match B with
  | some b => if b = 0 then d ^ 3 else d ^ 3 * b ^ 2
  | none => d ^ 3

/-- `ReductionCost.short_vectors` (the generic rerandomize+LLL baseline):
given the model's own call `self`, returns `(ρ, c, N)`. -/
def short_vectors (self : ℕ → ℕ → Option ℕ → ℝ) (beta d : ℕ) (N : Option ℕ)
    (B : Option ℕ) (preproc : Bool) : ℝ × ℝ × ℕ :=
  let cost : ℝ := if preproc then self beta d B else 0
  match N with
  | some 1 => (1.0, cost + 1, 1)
  | none => (2.0, cost + 1000 * (LLL d none : ℝ), 1000)
  | some n => (2.0, cost + n * (LLL d none : ℝ), n)

end ReductionCost

/-- `CheNgu12.__call__`: `LLL(d,B) + svp_repeat(β,d) * 2^cost` with
`cost = RR(0.270188776350190*beta*log(beta) - 1.0192050451318417*beta
+ 16.10253135200765 + log(100,2))` (sage `log` is the natural logarithm;
`log(100,2) = log 100 / log 2`). -/
def CheNgu12_call (beta d : ℕ) (B : Option ℕ) : ℝ :=
  (ReductionCost.LLL d B : ℝ) + (ReductionCost.svp_repeat beta d : ℝ) *
    (2 : ℝ) ^ (0.270188776350190 * (beta : ℝ) * Real.log (beta : ℝ)
      - 1.0192050451318417 * (beta : ℝ) + 16.10253135200765 + Real.log 100 / Real.log 2)

/-- Modelled from the spec: the oracle-cost exponent the spec's table ascribes to
CheNgu12, `0.270188776·β·log₂β − 1.019205·β + 16.1025 + log₂100`, read with the
spec's convention that all logs are base 2.  Kept separate from `CheNgu12_call`
(which embeds the source) so the two can be compared. -/
def CheNgu12_specFormula (beta d : ℕ) (B : Option ℕ) : ℝ :=
  (ReductionCost.LLL d B : ℝ) + (ReductionCost.svp_repeat beta d : ℝ) *
    (2 : ℝ) ^ (0.270188776350190 * (beta : ℝ) * Real.logb 2 (beta : ℝ)
      - 1.0192050451318417 * (beta : ℝ) + 16.10253135200765 + Real.logb 2 100)

/-- `ADPS16.__call__`: raises `ValueError` for an unrecognized mode, otherwise
`ZZ(2) ** RR(c * beta)` with `c` looked up among
`classical: 0.2920, quantum: 0.2650, paranoid: 0.2075`; the error is modelled
as `none`. -/
def ADPS16_call (beta d : ℕ) (B : Option ℕ) (mode : String) : Option ℝ :=
  if mode = "classical" then some ((2 : ℝ) ^ (0.2920 * (beta : ℝ)))
  else if mode = "quantum" then some ((2 : ℝ) ^ (0.2650 * (beta : ℝ)))
  else if mode = "paranoid" then some ((2 : ℝ) ^ (0.2075 * (beta : ℝ)))
  else none

/-- `Kyber.NN_AGPS`: regression coefficients `{a, b}` per nearest-neighbour
variant, compressing the data of [AC:AGPS20]. -/
def NN_AGPS (nn : String) : Option (ℝ × ℝ) :=
  if nn = "all_pairs-classical" then some (0.4215069316613415, 20.1669683097337)
  else if nn = "all_pairs-dw" then some (0.3171724396445732, 25.29828951733785)
  else if nn = "all_pairs-g" then some (0.3155285835002801, 22.478746811528048)
  else if nn = "all_pairs-ge19" then some (0.3222895263943544, 36.11746438609666)
  else if nn = "all_pairs-naive_classical" then some (0.4186251294633655, 9.899382654377058)
  else if nn = "all_pairs-naive_quantum" then some (0.31401512556555794, 7.694659515948326)
  else if nn = "all_pairs-t_count" then some (0.31553282515234704, 20.878594142502994)
  else if nn = "list_decoding-classical" then some (0.2988026130564745, 26.011121212891872)
  else if nn = "list_decoding-dw" then some (0.26944796385592995, 28.97237346443934)
  else if nn = "list_decoding-g" then some (0.26937450988892553, 26.925140365395972)
  else if nn = "list_decoding-ge19" then some (0.2695210400018704, 35.47132142280775)
  else if nn = "list_decoding-naive_classical" then some (0.2973130399197453, 21.142124058689426)
  else if nn = "list_decoding-naive_quantum" then some (0.2674316807758961, 18.720680589028465)
  else if nn = "list_decoding-t_count" then some (0.26945736714156543, 25.913746774011887)
  else if nn = "random_buckets-classical" then some (0.35586144233444716, 23.082527816636638)
  else if nn = "random_buckets-dw" then some (0.30704199612690264, 25.581968903639485)
  else if nn = "random_buckets-g" then some (0.30610964725102385, 22.928235564044563)
  else if nn = "random_buckets-ge19" then some (0.31089687599538407, 36.02129978813208)
  else if nn = "random_buckets-naive_classical" then some (0.35448283789554513, 15.28878540793908)
  else if nn = "random_buckets-naive_quantum" then some (0.30211421791887644, 11.151745013027089)
  else if nn = "random_buckets-t_count" then some (0.30614770082829745, 21.41830142853265)
  else none

/-- `Kyber.d4f`: dimensions "for free",
`max(float(beta * log(4/3.0) / log(beta / (2*pi*e))), 0.0)`. -/
def d4f (beta : ℕ) : ℝ :=
  max ((beta : ℝ) * Real.log (4 / 3) / Real.log ((beta : ℝ) / (2 * π * exp 1))) 0

/-- `Kyber.__call__`: for `beta < 20` delegate to `CheNgu12()(beta, d, B)`;
otherwise resolve the `nn` alias (`"classical" → "list_decoding-classical"`,
`"quantum" → "list_decoding-dw"`), and return
`LLL(d,B) + svp_calls * gate_count` with `svp_calls = C * max(d - beta, 1)` and
`gate_count = C * 2^(a * (beta - d4f(beta)) + b)`.  The `KeyError` a bad `nn`
raises at the table lookup is modelled as `none`. -/
def Kyber_call (beta d : ℕ) (B : Option ℕ) (nn : String) (C : ℝ) : Option ℝ :=
  if beta < 20 then some (CheNgu12_call beta d B)
  else
    let nn' := if nn = "classical" then "list_decoding-classical"
               else if nn = "quantum" then "list_decoding-dw" else nn
    match NN_AGPS nn' with
    | none => none
    | some ab =>
        some ((ReductionCost.LLL d B : ℝ) +
          (C * ((max ((d : ℤ) - (beta : ℤ)) 1 : ℤ) : ℝ)) *
          (C * (2 : ℝ) ^ (ab.1 * ((beta : ℝ) - d4f beta) + ab.2)))

/-- `GJ21` extends `Kyber` and does not override `__call__`, so its oracle cost
is Kyber's. -/
def GJ21_call (beta d : ℕ) (B : Option ℕ) (nn : String) (C : ℝ) : Option ℝ :=
  Kyber_call beta d B nn C

/-- The structured cost record built by `reduction.cost`: `rop`/`red` may be
`+∞` (`oo`), the remaining fields are the descriptive annotations and the
caller's extra keyword fields. -/
structure CostRecord (α : Type) where
  rop : EReal
  red : EReal
  delta : ℝ
  beta : ℕ
  d : ℕ
  extra : α

/-- `reduction.cost`: evaluate `cost = cost_model(beta, d, B)`, build
`Cost(rop=cost, red=cost, delta=delta(beta), beta=beta, d=d, **kwds)`, and if
`predicate is not None and not predicate` overwrite `red` and `rop` with `oo`. -/
def cost {α : Type} (cost_model : ℕ → ℕ → Option ℕ → ℝ) (beta d : ℕ) (B : Option ℕ)
    (predicate : Option Bool) (kwds : α) : CostRecord α :=
  let c := cost_model beta d B
  let r : CostRecord α :=
    { rop := (c : EReal), red := (c : EReal),
      delta := ReductionCost.delta (beta : ℝ), beta := beta, d := d, extra := kwds }
  match predicate with
  | some p => if p then r else { r with red := ⊤, rop := ⊤ }
  | none => r

end

section Basics

/-- The sage constant `2*pi*e` is between 17.0794 and 17.0795. -/
lemma two_pi_e_bounds : (17.0794 : ℝ) < 2 * π * exp 1 ∧ 2 * π * exp 1 < 17.0795 := by
  have h1 := Real.pi_gt_3141592
  have h2 := Real.pi_lt_3141593
  have h3 := Real.exp_one_gt_d9
  have h4 := Real.exp_one_lt_d9
  constructor <;> nlinarith

/-- Helper for C10: if `2πe < n < (4/3)·2πe` then `d4f` exceeds `n`. -/
lemma d4f_gt (n : ℕ) (hn1 : 2 * π * exp 1 < (n : ℝ)) (hn2 : (n : ℝ) < 4 / 3 * (2 * π * exp 1)) :
    (n : ℝ) < d4f n := by
  have hE : (0 : ℝ) < 2 * π * exp 1 := by positivity
  have hn0 : (0 : ℝ) < (n : ℝ) := lt_trans hE hn1
  have hD1 : (1 : ℝ) < (n : ℝ) / (2 * π * exp 1) := (one_lt_div hE).mpr hn1
  have hlogD : 0 < Real.log ((n : ℝ) / (2 * π * exp 1)) := Real.log_pos hD1
  have hlt : (n : ℝ) / (2 * π * exp 1) < 4 / 3 := (div_lt_iff hE).mpr (by linarith)
  have hloglt : Real.log ((n : ℝ) / (2 * π * exp 1)) < Real.log (4 / 3) :=
    Real.log_lt_log (by positivity) hlt
  have hq : (n : ℝ) < (n : ℝ) * Real.log (4 / 3) / Real.log ((n : ℝ) / (2 * π * exp 1)) := by
    rw [mul_div_assoc]
    nth_rewrite 1 [show (n : ℝ) = (n : ℝ) * 1 by ring]
    exact mul_lt_mul_of_pos_left ((one_lt_div hlogD).mpr hloglt) hn0
  exact lt_of_lt_of_le hq (le_max_left _ _)

end Basics

/-- C9 counterexample: `LLL(500)` with `B` omitted is `500³ = 125000000`, not
the spec's `125000000000` (which is `1000·LLL(500)`, the `short_vectors` cost
with `N = 1000` visible in the source doctest `(2.0, 125000000000, 1000)`). -/
theorem LLL_500_spec_value_refuted : ReductionCost.LLL 500 none ≠ 125000000000 := by
  unfold ReductionCost.LLL; norm_num

/-- C9 (amended): `LLL(500)`, called with `B` omitted, returns `500³ = 125000000`. -/
theorem LLL_500_value : ReductionCost.LLL 500 none = 125000000 := by
  unfold ReductionCost.LLL; norm_num

/-- C4: `cost(model, β, d, B, predicate, …)` never raises (it is a total
function); with `predicate=False` it returns `rop = red = +∞` while `delta`,
`beta`, `d` and the extra fields are exactly those of the `predicate=None`
record; with `predicate=None` or a true predicate, `rop` and `red` are the raw
model evaluation `model(β, d, B)`. -/
theorem cost_predicate_gate {α : Type} (model : ℕ → ℕ → Option ℕ → ℝ) (beta d : ℕ)
    (B : Option ℕ) (kwds : α) :
    (cost model beta d B (some false) kwds).rop = ⊤
    ∧ (cost model beta d B (some false) kwds).red = ⊤
    ∧ (cost model beta d B (some false) kwds).delta = (cost model beta d B none kwds).delta
    ∧ (cost model beta d B (some false) kwds).beta = (cost model beta d B none kwds).beta
    ∧ (cost model beta d B (some false) kwds).d = (cost model beta d B none kwds).d
    ∧ (cost model beta d B (some false) kwds).extra = (cost model beta d B none kwds).extra
    ∧ (cost model beta d B none kwds).rop = ((model beta d B : ℝ) : EReal)
    ∧ (cost model beta d B none kwds).red = ((model beta d B : ℝ) : EReal)
    ∧ (cost model beta d B (some true) kwds).rop = ((model beta d B : ℝ) : EReal)
    ∧ (cost model beta d B (some true) kwds).red = ((model beta d B : ℝ) : EReal) :=
  ⟨rfl, rfl, rfl, rfl, rfl, rfl, rfl, rfl, rfl, rfl⟩

/-- C6: for `2 ≤ β < 20` (any `d ≥ 1`, any `B`, any `nn`, any `C`), `Kyber`'s
call — and `GJ21`'s, which inherits it — returns exactly `CheNgu12(β, d, B)`. -/
theorem kyber_small_beta_delegates (beta d : ℕ) (B : Option ℕ) (nn : String) (C : ℝ)
    (h2 : 2 ≤ beta) (h20 : beta < 20) (hd : 1 ≤ d) :
    Kyber_call beta d B nn C = some (CheNgu12_call beta d B)
    ∧ GJ21_call beta d B nn C = some (CheNgu12_call beta d B) := by
  unfold GJ21_call Kyber_call
  simp [h20]

/-- C6 witness at `β = 10`, `d = 5`. -/
theorem kyber_small_beta_delegates_witness :
    Kyber_call 10 5 none "classical" 5.46 = some (CheNgu12_call 10 5 none)
    ∧ GJ21_call 10 5 none "classical" 5.46 = some (CheNgu12_call 10 5 none) :=
  kyber_small_beta_delegates 10 5 none "classical" 5.46 (by norm_num) (by norm_num) (by norm_num)

/-- C7: `ADPS16` returns an error (modelled `none`) exactly on modes other than
`"classical"`, `"quantum"`, `"paranoid"`; on those it returns `2^(c·β)` with
`c = 0.2920 / 0.2650 / 0.2075`, independently of `d` and `B`. -/
theorem adps16_mode_gate (beta d : ℕ) (B : Option ℕ) (mode : String) :
    (ADPS16_call beta d B mode = none
      ↔ mode ≠ "classical" ∧ mode ≠ "quantum" ∧ mode ≠ "paranoid")
    ∧ ADPS16_call beta d B "classical" = some ((2 : ℝ) ^ (0.2920 * (beta : ℝ)))
    ∧ ADPS16_call beta d B "quantum" = some ((2 : ℝ) ^ (0.2650 * (beta : ℝ)))
    ∧ ADPS16_call beta d B "paranoid" = some ((2 : ℝ) ^ (0.2075 * (beta : ℝ)))
    ∧ ∀ (d' : ℕ) (B' : Option ℕ), ADPS16_call beta d B mode = ADPS16_call beta d' B' mode := by
  refine ⟨?_, rfl, rfl, rfl, fun d' B' => ?_⟩
  · unfold ADPS16_call
    split_ifs <;> simp [*]
  · unfold ADPS16_call
    split_ifs <;> rfl

/-- C8: the generic (rerandomize+LLL) `short_vectors` strategy: `N=1` gives
`(1.0, preprocessCost + 1, 1)`; `N` omitted gives `(2.0, preprocessCost +
1000·LLL(d), 1000)`; a requested `N ≥ 2` gives `(2.0, preprocessCost +
N·LLL(d), N)`, where `preprocessCost` is the model's base cost if `preprocess`
and `0` otherwise. -/
theorem short_vectors_default (self : ℕ → ℕ → Option ℕ → ℝ) (beta d : ℕ) (B : Option ℕ)
    (preproc : Bool) :
    ReductionCost.short_vectors self beta d (some 1) B preproc
      = (1.0, (if preproc then self beta d B else 0) + 1, 1)
    ∧ ReductionCost.short_vectors self beta d none B preproc
      = (2.0, (if preproc then self beta d B else 0) + 1000 * (ReductionCost.LLL d none : ℝ), 1000)
    ∧ ∀ n : ℕ, 2 ≤ n →
        ReductionCost.short_vectors self beta d (some n) B preproc
          = (2.0, (if preproc then self beta d B else 0) + n * (ReductionCost.LLL d none : ℝ), n) := by
  refine ⟨rfl, rfl, fun n hn => ?_⟩
  obtain ⟨m, rfl⟩ : ∃ m, n = m + 2 := ⟨n - 2, by omega⟩
  rfl

/-- C8 witness at `CheNgu12`, `β = 100`, `d = 500`, `N = 1000`. -/
theorem short_vectors_default_witness :
    ReductionCost.short_vectors CheNgu12_call 100 500 (some 1000) none true
      = (2.0, (if true then CheNgu12_call 100 500 none else 0)
          + 1000 * (ReductionCost.LLL 500 none : ℝ), 1000) :=
  (short_vectors_default CheNgu12_call 100 500 none true).2.2 1000 (by norm_num)

/-- C10: for each `β ∈ {20, 21, 22}`, `Kyber.d4f(β) > β` (so the effective
sieve dimension `β − d4f(β)` is negative), and `Kyber.__call__` at `β = 20`
(not redirected, since the redirect needs `β < 20`) evaluates its sieving
gate count `2^(a·β' + b)` at that negative `β'` rather than signalling. -/
theorem kyber_d4f_exceeds_beta :
    (∀ beta : ℕ, beta = 20 ∨ beta = 21 ∨ beta = 22 →
      (beta : ℝ) < d4f beta ∧ (beta : ℝ) - d4f beta < 0)
    ∧ ∀ (d : ℕ) (B : Option ℕ),
        Kyber_call 20 d B "classical" 5.46
          = some ((ReductionCost.LLL d B : ℝ) +
              (5.46 * ((max ((d : ℤ) - 20) 1 : ℤ) : ℝ)) *
              (5.46 * (2 : ℝ) ^ (0.2988026130564745 * (((20 : ℕ) : ℝ) - d4f 20)
                + 26.011121212891872))) := by
  obtain ⟨hE1, hE2⟩ := two_pi_e_bounds
  constructor
  · have h20 : ((20 : ℕ) : ℝ) < d4f 20 :=
      d4f_gt 20 (by push_cast; nlinarith) (by push_cast; nlinarith)
    have h21 : ((21 : ℕ) : ℝ) < d4f 21 :=
      d4f_gt 21 (by push_cast; nlinarith) (by push_cast; nlinarith)
    have h22 : ((22 : ℕ) : ℝ) < d4f 22 :=
      d4f_gt 22 (by push_cast; nlinarith) (by push_cast; nlinarith)
    rintro beta (rfl | rfl | rfl)
    · exact ⟨h20, by linarith⟩
    · exact ⟨h21, by linarith⟩
    · exact ⟨h22, by linarith⟩
  · intro d B
    rfl

/-- C10 witness at `β = 20`. -/
theorem kyber_d4f_exceeds_beta_witness :
    ((20 : ℕ) : ℝ) < d4f 20 ∧ ((20 : ℕ) : ℝ) - d4f 20 < 0 :=
  kyber_d4f_exceeds_beta.1 20 (Or.inl rfl)

/-- C1 counterexample: at `β = 2`, `d = 1`, `B` absent, the CheNgu12 cost of the
source (whose `log(beta)` is the natural logarithm) differs from the spec's
base-2 reading of the exponent, so the claimed formula is false as stated. -/
theorem chengu12_log_base_counterexample :
    CheNgu12_call 2 1 none ≠ CheNgu12_specFormula 2 1 none := by
  have hlog2 : Real.log 2 < 1 := by have := Real.log_two_lt_d9; linarith
  have hlb : Real.logb 2 ((2 : ℕ) : ℝ) = 1 := by
    push_cast
    exact Real.logb_self_eq_one (by norm_num)
  have hE : 0.270188776350190 * ((2 : ℕ) : ℝ) * Real.log ((2 : ℕ) : ℝ)
      - 1.0192050451318417 * ((2 : ℕ) : ℝ) + 16.10253135200765 + Real.log 100 / Real.log 2
      < 0.270188776350190 * ((2 : ℕ) : ℝ) * Real.logb 2 ((2 : ℕ) : ℝ)
      - 1.0192050451318417 * ((2 : ℕ) : ℝ) + 16.10253135200765 + Real.logb 2 100 := by
    rw [hlb]
    have h100 : Real.logb 2 100 = Real.log 100 / Real.log 2 := rfl
    rw [h100]
    push_cast
    nlinarith
  have hpow : (2 : ℝ) ^ (0.270188776350190 * ((2 : ℕ) : ℝ) * Real.log ((2 : ℕ) : ℝ)
      - 1.0192050451318417 * ((2 : ℕ) : ℝ) + 16.10253135200765 + Real.log 100 / Real.log 2)
      < (2 : ℝ) ^ (0.270188776350190 * ((2 : ℕ) : ℝ) * Real.logb 2 ((2 : ℕ) : ℝ)
      - 1.0192050451318417 * ((2 : ℕ) : ℝ) + 16.10253135200765 + Real.logb 2 100) :=
    (Real.rpow_lt_rpow_left_iff (by norm_num : (1 : ℝ) < 2)).mpr hE
  unfold CheNgu12_call CheNgu12_specFormula
  apply ne_of_lt
  have hL : (ReductionCost.LLL 1 none : ℝ) = 1 := by unfold ReductionCost.LLL; norm_num
  have hR : (ReductionCost.svp_repeat 2 1 : ℝ) = 1 := by unfold ReductionCost.svp_repeat; norm_num
  rw [hL, hR]
  linarith

/-- C1 (amended): for every `β ≥ 2`, `d ≥ 1` and optional `B`, the CheNgu12
model returns `LLL(d,B) + svp_repeat(β,d) · 2^E` with
`E = 0.270188776…·β·ln β − 1.01920504…·β + 16.10253… + log₂100`, where `ln`
is the natural logarithm (equivalently `0.18728…·β·log₂ β` for the first
term). -/
theorem chengu12_cost_formula (beta d : ℕ) (B : Option ℕ) (h2 : 2 ≤ beta) (hd : 1 ≤ d) :
    CheNgu12_call beta d B
      = (ReductionCost.LLL d B : ℝ) + (ReductionCost.svp_repeat beta d : ℝ) *
          (2 : ℝ) ^ (0.270188776350190 * (beta : ℝ) * Real.log (beta : ℝ)
            - 1.0192050451318417 * (beta : ℝ) + 16.10253135200765 + Real.logb 2 100) := by
  unfold CheNgu12_call
  rfl

/-- C1 witness at `β = 2`, `d = 1`. -/
theorem chengu12_cost_formula_witness :
    CheNgu12_call 2 1 none
      = (ReductionCost.LLL 1 none : ℝ) + (ReductionCost.svp_repeat 2 1 : ℝ) *
          (2 : ℝ) ^ (0.270188776350190 * ((2 : ℕ) : ℝ) * Real.log ((2 : ℕ) : ℝ)
            - 1.0192050451318417 * ((2 : ℕ) : ℝ) + 16.10253135200765 + Real.logb 2 100) :=
  chengu12_cost_formula 2 1 none (by norm_num) (by norm_num)

noncomputable section DeltaAnalysis

/-- Numerator of the logarithm of the closed-form δ:
`log δ(x) = Nf x / (2(x-1))` for `x > 1`. -/
def Nf (x : ℝ) : ℝ :=
  Real.log x - (Real.log 2 + Real.log π + 1) + (Real.log π + Real.log x) / x

/-- Logarithm of the closed-form δ. -/
def Ff (x : ℝ) : ℝ := Nf x / (2 * (x - 1))

end DeltaAnalysis

lemma exp_nat_div_lt {a n : ℕ} {c : ℝ} (hn : 0 < n) (hc : 0 ≤ c)
    (h : (exp 1) ^ a < c ^ n) : exp ((a : ℝ) / (n : ℝ)) < c := by
  by_contra hle
  push_neg at hle
  have h1 : c ^ n ≤ (exp ((a : ℝ) / (n : ℝ))) ^ n := pow_le_pow_left hc hle n
  have h2 : (exp ((a : ℝ) / (n : ℝ))) ^ n = exp (a : ℝ) := by
    rw [← Real.exp_nat_mul]
    congr 1
    field_simp
  have h3 : exp (a : ℝ) = (exp 1) ^ a := by
    rw [← Real.exp_nat_mul, mul_one]
  rw [h2, h3] at h1
  linarith

lemma lt_exp_nat_div {a n : ℕ} {c : ℝ} (hn : 0 < n) (hc : 0 ≤ c)
    (h : c ^ n < (exp 1) ^ a) : c < exp ((a : ℝ) / (n : ℝ)) := by
  by_contra hle
  push_neg at hle
  have h1 : (exp ((a : ℝ) / (n : ℝ))) ^ n ≤ c ^ n :=
    pow_le_pow_left (le_of_lt (exp_pos _)) hle n
  have h2 : (exp ((a : ℝ) / (n : ℝ))) ^ n = exp (a : ℝ) := by
    rw [← Real.exp_nat_mul]; congr 1; field_simp
  have h3 : exp (a : ℝ) = (exp 1) ^ a := by rw [← Real.exp_nat_mul, mul_one]
  rw [h2, h3] at h1
  linarith

lemma log_five_gt : (1.6 : ℝ) < Real.log 5 := by
  have h : exp ((16 : ℕ) / (10 : ℕ) : ℝ) < 5 := by
    apply exp_nat_div_lt (by norm_num) (by norm_num)
    calc (exp 1) ^ (16:ℕ) < 2.7182818286 ^ (16:ℕ) :=
          pow_lt_pow_left Real.exp_one_lt_d9 (le_of_lt (exp_pos 1)) (by norm_num)
      _ < 5 ^ (16:ℕ) / 5 ^ (6:ℕ) := by norm_num
      _ = 5 ^ (10:ℕ) := by norm_num
  have h2 : ((16:ℕ):ℝ)/((10:ℕ):ℝ) = (1.6:ℝ) := by norm_num
  rw [h2] at h
  exact (Real.lt_log_iff_exp_lt (by norm_num : (0:ℝ) < 5)).mpr h

lemma log_pi_gt : (1.1 : ℝ) < Real.log π := by
  have h : exp ((11 : ℕ) / (10 : ℕ) : ℝ) < π := by
    apply exp_nat_div_lt (by norm_num) (le_of_lt Real.pi_pos)
    calc (exp 1) ^ (11:ℕ) < 2.7182818286 ^ (11:ℕ) :=
          pow_lt_pow_left Real.exp_one_lt_d9 (le_of_lt (exp_pos 1)) (by norm_num)
      _ < 3.141592 ^ (10:ℕ) := by norm_num
      _ < π ^ (10:ℕ) := pow_lt_pow_left Real.pi_gt_3141592 (by norm_num) (by norm_num)
  have h2 : ((11:ℕ):ℝ)/((10:ℕ):ℝ) = (1.1:ℝ) := by norm_num
  rw [h2] at h
  exact (Real.lt_log_iff_exp_lt Real.pi_pos).mpr h

lemma log_pi_lt : Real.log π < 1.15 := by
  have h : π < exp ((23 : ℕ) / (20 : ℕ) : ℝ) := by
    apply lt_exp_nat_div (by norm_num) (le_of_lt Real.pi_pos)
    calc π ^ (20:ℕ) < 3.141593 ^ (20:ℕ) :=
          pow_lt_pow_left Real.pi_lt_3141593 (le_of_lt Real.pi_pos) (by norm_num)
      _ < 2.7182818283 ^ (23:ℕ) := by norm_num
      _ < (exp 1) ^ (23:ℕ) :=
          pow_lt_pow_left Real.exp_one_gt_d9 (by norm_num) (by norm_num : (23:ℕ) ≠ 0)
  have h2 : ((23:ℕ):ℝ)/((20:ℕ):ℝ) = (1.15:ℝ) := by norm_num
  rw [h2] at h
  exact (Real.log_lt_iff_lt_exp Real.pi_pos).mpr h

lemma log_forty_gt : (3.6794 : ℝ) ≤ Real.log 40 := by
  have h40 : (40 : ℝ) = 2 ^ (3:ℕ) * 5 := by norm_num
  have hl5 := log_five_gt
  have hl2 := Real.log_two_gt_d9
  rw [h40, Real.log_mul (by norm_num) (by norm_num), Real.log_pow]
  push_cast
  nlinarith

lemma two_pi_e_sq_le : 2 * π * (exp 1)^2 ≤ 55 := by
  have h2 := Real.pi_lt_3141593
  have h4 := Real.exp_one_lt_d9
  have he0 := Real.exp_pos 1
  nlinarith

lemma rpow_nat_inv_le {a c : ℝ} (n : ℕ) (ha : 0 ≤ a) (hc : 0 ≤ c) (hn : n ≠ 0)
    (h : a ≤ c ^ n) : a ^ ((1 : ℝ) / (n : ℝ)) ≤ c := by
  have h1 : a ^ ((1 : ℝ) / (n : ℝ)) ≤ (c ^ n : ℝ) ^ ((1 : ℝ) / (n : ℝ)) :=
    Real.rpow_le_rpow ha h (by positivity)
  have h2 : (c ^ n : ℝ) ^ ((1 : ℝ) / (n : ℝ)) = c := by
    rw [← Real.rpow_natCast c n, ← Real.rpow_mul hc]
    rw [mul_one_div, div_self (by exact_mod_cast hn : ((n : ℝ)) ≠ 0), Real.rpow_one]
  rwa [h2] at h1

lemma closedForm_eq_exp {x : ℝ} (hx : 1 < x) : ReductionCost.closedForm x = exp (Ff x) := by
  have hx0 : (0:ℝ) < x := lt_trans one_pos hx
  have hpix : (0:ℝ) < π * x := by positivity
  have hbase : (0:ℝ) < x / (2 * π * exp 1) * (π * x) ^ ((1 : ℝ) / x) := by positivity
  have hlb : Real.log (x / (2 * π * exp 1) * (π * x) ^ ((1 : ℝ) / x)) = Nf x := by
    rw [Real.log_mul (ne_of_gt (by positivity)) (ne_of_gt (Real.rpow_pos_of_pos hpix _)),
        Real.log_rpow hpix,
        Real.log_div (ne_of_gt hx0) (ne_of_gt (by positivity)),
        Real.log_mul (ne_of_gt (by positivity)) (ne_of_gt (Real.exp_pos 1)),
        Real.log_mul (two_ne_zero) (ne_of_gt Real.pi_pos),
        Real.log_exp,
        Real.log_mul (ne_of_gt Real.pi_pos) (ne_of_gt hx0)]
    unfold Nf
    field_simp
  rw [ReductionCost.closedForm, Real.rpow_def_of_pos hbase, hlb]
  unfold Ff
  rw [mul_one_div]

lemma hasDerivAt_Nf {x : ℝ} (hx : 0 < x) :
    HasDerivAt Nf (1/x + (1/x * x - (Real.log π + Real.log x) * 1) / x^2) x := by
  have h1 : HasDerivAt (fun y : ℝ => Real.log π + Real.log y) (1/x) x := by
    simpa using (Real.hasDerivAt_log (ne_of_gt hx)).const_add (Real.log π)
  have h2 : HasDerivAt (fun y : ℝ => (Real.log π + Real.log y) / y)
      ((1/x * x - (Real.log π + Real.log x) * 1) / x^2) x :=
    h1.div (hasDerivAt_id x) (ne_of_gt hx)
  have h3 : HasDerivAt (fun y : ℝ => Real.log y - (Real.log 2 + Real.log π + 1)) (1/x) x := by
    simpa using (Real.hasDerivAt_log (ne_of_gt hx)).sub_const (Real.log 2 + Real.log π + 1)
  have := h3.add h2
  convert this using 2 <;> simp [Nf]

lemma hasDerivAt_Ff {x : ℝ} (hx : 0 < x) (hx1 : x ≠ 1) :
    HasDerivAt Ff
      (((1/x + (1/x * x - (Real.log π + Real.log x) * 1) / x^2) * (2 * (x - 1)) - Nf x * (2 * 1))
        / (2 * (x - 1))^2) x := by
  have hden : HasDerivAt (fun y : ℝ => 2 * (y - 1)) (2 * 1) x :=
    ((hasDerivAt_id x).sub_const 1).const_mul 2
  have hne : 2 * (x - 1) ≠ 0 := by
    intro h; apply hx1; linarith [h]
  exact (hasDerivAt_Nf hx).div hden hne

lemma key_ineq_abstract (x L P Q : ℝ) (hx : 40 ≤ x) (hx0 : (0:ℝ) < x)
    (hL : 3.6794 ≤ L) (hP1 : 1.1 ≤ P) (hQ : Q ≤ 2.8432)
    (h55 : 55 ≤ x → 1 ≤ L - Q) :
    (1/x + (1 - (P + L)) / x^2) * (x - 1) < L - Q + (P + L) / x := by
  rcases le_or_lt 55 x with h5 | h5
  · have hxm : (0:ℝ) ≤ x - 1 := by linarith
    have hsplit : (1/x + (1 - (P + L)) / x^2) * (x - 1)
        = 1/x * (x - 1) + (1 - (P + L)) / x^2 * (x - 1) := by ring
    have hb : (1 - (P + L)) / x^2 * (x - 1) ≤ 0 :=
      mul_nonpos_of_nonpos_of_nonneg
        (div_nonpos_of_nonpos_of_nonneg (by linarith) (by positivity)) hxm
    have ha : 1/x * (x - 1) = 1 - 1/x := by field_simp
    have hainv : (0:ℝ) < 1/x := by positivity
    have hPL : (0:ℝ) < (P + L) / x := by positivity
    have h1 := h55 h5
    rw [hsplit, ha]
    linarith
  · have hx2 : (0:ℝ) < x^2 := by positivity
    have hL' : (1/x + (1 - (P + L)) / x^2) * (x - 1)
        = (x * (x - 1) + (x - 1) * (1 - (P + L))) / x^2 := by
      field_simp
      ring
    have hR' : L - Q + (P + L) / x = (x^2 * (L - Q) + x * (P + L)) / x^2 := by
      field_simp
      ring
    rw [hL', hR', div_lt_div_iff_of_pos_right hx2]
    nlinarith [mul_nonneg (by linarith : (0:ℝ) ≤ L - 3.6794) (by nlinarith : (0:ℝ) ≤ x^2 + 2*x - 1),
      mul_nonneg (by linarith : (0:ℝ) ≤ P - 1.1) (by linarith : (0:ℝ) ≤ 2*x - 1),
      mul_nonneg (by linarith : (0:ℝ) ≤ 2.8432 - Q) (le_of_lt hx2),
      mul_nonneg (by linarith : (0:ℝ) ≤ x - 40) (by linarith : (0:ℝ) ≤ 55 - x)]

lemma key_ineq (x : ℝ) (hx : 40 ≤ x) :
    (1/x + (1 - (Real.log π + Real.log x)) / x^2) * (x - 1) < Nf x := by
  have hx0 : (0:ℝ) < x := by linarith
  have hL : (3.6794:ℝ) ≤ Real.log x :=
    le_trans log_forty_gt (Real.log_le_log (by norm_num) hx)
  have h55 : 55 ≤ x → 1 ≤ Real.log x - (Real.log 2 + Real.log π + 1) := by
    intro h5
    have hkey : Real.log (2 * π * (exp 1)^2) = Real.log 2 + Real.log π + 2 := by
      rw [Real.log_mul (by positivity) (by positivity),
          Real.log_mul (two_ne_zero) (ne_of_gt Real.pi_pos),
          Real.log_pow, Real.log_exp]
      push_cast
      ring
    have hmono : Real.log (2 * π * (exp 1)^2) ≤ Real.log x :=
      Real.log_le_log (by positivity) (le_trans two_pi_e_sq_le (by linarith))
    rw [hkey] at hmono
    linarith
  have := key_ineq_abstract x (Real.log x) (Real.log π) (Real.log 2 + Real.log π + 1)
    hx hx0 hL (le_of_lt log_pi_gt)
    (by have := Real.log_two_lt_d9; have := log_pi_lt; linarith) h55
  unfold Nf
  linarith [this]

lemma Ff_deriv_neg {x : ℝ} (hx : 40 < x) : deriv Ff x < 0 := by
  have hx0 : (0:ℝ) < x := by linarith
  have hx1 : x ≠ 1 := by intro h; rw [h] at hx; linarith
  have h := (hasDerivAt_Ff hx0 hx1).deriv
  rw [h]
  apply div_neg_of_neg_of_pos
  · have heq : (1/x + (1/x * x - (Real.log π + Real.log x) * 1) / x^2) * (2 * (x - 1))
        - Nf x * (2 * 1)
        = 2 * ((1/x + (1 - (Real.log π + Real.log x)) / x^2) * (x - 1) - Nf x) := by
      field_simp
      ring
    rw [heq]
    have KI := key_ineq x (le_of_lt hx)
    linarith
  · have : 2 * (x - 1) > 0 := by linarith
    positivity

lemma Ff_strictAntiOn : StrictAntiOn Ff (Set.Ici (40:ℝ)) := by
  apply strictAntiOn_of_deriv_neg (convex_Ici 40)
  · intro y hy
    have hy40 : (40:ℝ) ≤ y := hy
    exact (hasDerivAt_Ff (by linarith) (by intro h; rw [h] at hy40; linarith)
      ).differentiableAt.continuousAt.continuousWithinAt
  · rw [interior_Ici]
    exact fun y hy => Ff_deriv_neg hy

lemma closedForm_strictAntiOn : StrictAntiOn ReductionCost.closedForm (Set.Ici (40:ℝ)) := by
  intro a ha b hb hab
  have ha' : (1:ℝ) < a := lt_of_lt_of_le (by norm_num) ha
  have hb' : (1:ℝ) < b := lt_of_lt_of_le (by norm_num) hb
  rw [closedForm_eq_exp ha', closedForm_eq_exp hb']
  exact Real.exp_lt_exp.mpr (Ff_strictAntiOn ha hb hab)

lemma closedForm_40_le : ReductionCost.closedForm 40 ≤ 1.01295 := by
  obtain ⟨hE1, hE2⟩ := two_pi_e_bounds
  have hpos : (0:ℝ) < π * 40 := by positivity
  have hu : (π * 40) ^ ((1 : ℝ) / (40 : ℝ)) ≤ 1.1286 := by
    have hcast : ((40 : ℕ) : ℝ) = (40 : ℝ) := by norm_num
    rw [← hcast]
    apply rpow_nat_inv_le 40 (le_of_lt hpos) (by norm_num) (by norm_num)
    have hπ : π * 40 ≤ 125.66372 := by nlinarith [Real.pi_lt_3141593]
    calc π * 40 ≤ 125.66372 := hπ
      _ ≤ (1.1286 : ℝ) ^ (40 : ℕ) := by norm_num
  have hd : (40 : ℝ) / (2 * π * exp 1) ≤ 40 / 17.0794 := by
    rw [div_le_div_iff (by positivity) (by norm_num)]
    nlinarith
  have hbase : (40 : ℝ) / (2 * π * exp 1) * (π * 40) ^ ((1 : ℝ) / (40 : ℝ)) ≤ 2.6433 := by
    have h1 : (40 : ℝ) / (2 * π * exp 1) * (π * 40) ^ ((1 : ℝ) / (40 : ℝ))
        ≤ (40 / 17.0794) * 1.1286 :=
      mul_le_mul hd hu (by positivity) (by norm_num)
    calc (40 : ℝ) / (2 * π * exp 1) * (π * 40) ^ ((1 : ℝ) / (40 : ℝ))
        ≤ (40 / 17.0794) * 1.1286 := h1
      _ ≤ 2.6433 := by norm_num
  rw [ReductionCost.closedForm]
  have hexp : ((1 : ℝ) / (2 * ((40 : ℝ) - 1))) = (1 : ℝ) / ((78 : ℕ) : ℝ) := by norm_num
  rw [hexp]
  apply rpow_nat_inv_le 78 (by positivity) (by norm_num) (by norm_num)
  calc (40 : ℝ) / (2 * π * exp 1) * (π * 40) ^ ((1 : ℝ) / (40 : ℝ)) ≤ 2.6433 := hbase
    _ ≤ (1.01295 : ℝ) ^ (78 : ℕ) := by norm_num

lemma delta_eq_closedForm {x : ℝ} (hx : 40 < x) :
    ReductionCost._delta x = ReductionCost.closedForm x := by
  unfold ReductionCost._delta
  rw [if_neg (by linarith : ¬x ≤ 2), if_neg (by linarith : ¬x < 40),
    if_neg (by intro h; rw [h] at hx; exact lt_irrefl _ hx)]

lemma delta_at_40 : ReductionCost._delta 40 = 1.01295 := by
  unfold ReductionCost._delta
  norm_num

lemma delta_table_lb {x : ℝ} (hx : x ≤ 40) : (1.01295 : ℝ) ≤ ReductionCost._delta x := by
  rcases eq_or_lt_of_le hx with h | h
  · rw [h, delta_at_40]
  · unfold ReductionCost._delta
    split_ifs <;> first | linarith | norm_num

set_option maxHeartbeats 1600000 in
lemma delta_anti_le40 {x y : ℝ} (hxy : x ≤ y) (hy : y ≤ 40) :
    ReductionCost._delta y ≤ ReductionCost._delta x := by
  rcases eq_or_lt_of_le hy with h | h
  · rw [h, delta_at_40]
    exact delta_table_lb (le_trans hxy hy)
  · unfold ReductionCost._delta
    split_ifs <;> first | linarith | norm_num

lemma delta_lt_of_gt40 {x : ℝ} (hx : 40 < x) : ReductionCost._delta x < 1.01295 := by
  rw [delta_eq_closedForm hx]
  exact lt_of_lt_of_le
    (closedForm_strictAntiOn (Set.mem_Ici.mpr (le_refl 40)) (Set.mem_Ici.mpr (le_of_lt hx)) hx)
    closedForm_40_le

lemma delta_antitone {x y : ℝ} (hxy : x ≤ y) :
    ReductionCost._delta y ≤ ReductionCost._delta x := by
  rcases le_or_lt y 40 with hy | hy
  · exact delta_anti_le40 hxy hy
  · rcases le_or_lt x 40 with hx | hx
    · exact le_trans (le_of_lt (delta_lt_of_gt40 hy)) (delta_table_lb hx)
    · rcases eq_or_lt_of_le hxy with h | h
      · rw [h]
      · rw [delta_eq_closedForm hy, delta_eq_closedForm hx]
        exact le_of_lt (closedForm_strictAntiOn (Set.mem_Ici.mpr (le_of_lt hx))
          (Set.mem_Ici.mpr (le_of_lt hy)) h)

lemma delta_strictAnti_ge40 {x y : ℝ} (hx : 40 ≤ x) (hxy : x < y) :
    ReductionCost._delta y < ReductionCost._delta x := by
  rcases eq_or_lt_of_le hx with h | h
  · rw [← h, delta_at_40]
    exact delta_lt_of_gt40 (by rw [← h] at hxy; exact hxy)
  · rw [delta_eq_closedForm h, delta_eq_closedForm (lt_trans h hxy)]
    exact closedForm_strictAntiOn (Set.mem_Ici.mpr (le_of_lt h))
      (Set.mem_Ici.mpr (le_of_lt (lt_trans h hxy))) hxy

/-- C5: `delta` is non-increasing over its whole integer domain `β ≥ 2`:
for all integers `2 ≤ β₁ ≤ β₂`, `delta(β₁) ≥ delta(β₂)`, across the constant
region, the breakpoint table, the value at `β = 40`, the table/closed-form
junction and the asymptotic region. -/
theorem delta_nonincreasing (beta1 beta2 : ℤ) (h2 : 2 ≤ beta1) (h12 : beta1 ≤ beta2) :
    ReductionCost.delta ((beta2 : ℤ) : ℝ) ≤ ReductionCost.delta ((beta1 : ℤ) : ℝ) := by
  unfold ReductionCost.delta
  rw [round_intCast, round_intCast]
  exact delta_antitone (by exact_mod_cast h12)

/-- C5 witness at `β₁ = 2`, `β₂ = 41`. -/
theorem delta_nonincreasing_witness :
    ReductionCost.delta ((41 : ℤ) : ℝ) ≤ ReductionCost.delta ((2 : ℤ) : ℝ) :=
  delta_nonincreasing 2 41 (by norm_num) (by norm_num)

lemma delta_int_anti {m m' : ℤ} (h : m ≤ m') :
    ReductionCost._delta ((m' : ℤ) : ℝ) ≤ ReductionCost._delta ((m : ℤ) : ℝ) :=
  delta_antitone (by exact_mod_cast h)

lemma dblLoop_spec (dl : ℝ) (M : ℤ) (hM : ReductionCost._delta ((2 * M : ℤ) : ℝ) ≤ dl) :
    ∀ (n : ℕ) (b : ℤ) (fuel : ℕ), 40 ≤ b → M ≤ 2 ^ n * b → n < fuel →
    (∀ m : ℤ, 40 ≤ m → m < b → dl ≤ ReductionCost._delta ((m : ℤ) : ℝ)) →
    ∃ b', ReductionCost.dblLoop dl fuel b = some b' ∧ 40 ≤ b' ∧
      (∀ m : ℤ, 40 ≤ m → m < b' → dl ≤ ReductionCost._delta ((m : ℤ) : ℝ)) := by
  intro n
  induction n with
  | zero =>
    intro b fuel hb hMb hfuel hinv
    obtain ⟨f, rfl⟩ : ∃ f, fuel = f + 1 := ⟨fuel - 1, by omega⟩
    have hMb' : M ≤ b := by simpa using hMb
    have hexit : ReductionCost._delta ((2 * b : ℤ) : ℝ) ≤ dl :=
      le_trans (delta_int_anti (by omega)) hM
    refine ⟨b, ?_, hb, hinv⟩
    unfold ReductionCost.dblLoop
    rw [if_neg (not_lt.mpr hexit)]
  | succ n ih =>
    intro b fuel hb hMb hfuel hinv
    obtain ⟨f, rfl⟩ : ∃ f, fuel = f + 1 := ⟨fuel - 1, by omega⟩
    by_cases hc : dl < ReductionCost._delta ((2 * b : ℤ) : ℝ)
    · have hstep : ReductionCost.dblLoop dl (f + 1) b
          = if dl < ReductionCost._delta ((2 * b : ℤ) : ℝ) then ReductionCost.dblLoop dl f (2 * b)
            else some b := rfl
      rw [hstep, if_pos hc]
      apply ih (2 * b) f (by omega) (by rw [pow_succ] at hMb; linarith [hMb]) (by omega)
      intro m hm40 hmlt
      exact le_trans (le_of_lt hc) (delta_int_anti (by omega))
    · refine ⟨b, ?_, hb, hinv⟩
      unfold ReductionCost.dblLoop
      rw [if_neg hc]

lemma tenLoop_spec (dl : ℝ) (M : ℤ) (hM : ReductionCost._delta ((M : ℤ) : ℝ) ≤ dl) :
    ∀ (n : ℕ) (b : ℤ) (fuel : ℕ), 40 ≤ b → M ≤ b + 10 * n → n < fuel →
    (∀ m : ℤ, 40 ≤ m → m < b → dl ≤ ReductionCost._delta ((m : ℤ) : ℝ)) →
    ∃ b', ReductionCost.tenLoop dl fuel b = some b' ∧ 40 ≤ b' ∧
      (∀ m : ℤ, 40 ≤ m → m < b' → dl ≤ ReductionCost._delta ((m : ℤ) : ℝ)) := by
  intro n
  induction n with
  | zero =>
    intro b fuel hb hMb hfuel hinv
    obtain ⟨f, rfl⟩ : ∃ f, fuel = f + 1 := ⟨fuel - 1, by omega⟩
    have hMb' : M ≤ b := by omega
    have hexit : ReductionCost._delta ((b + 10 : ℤ) : ℝ) ≤ dl :=
      le_trans (delta_int_anti (by omega)) hM
    refine ⟨b, ?_, hb, hinv⟩
    unfold ReductionCost.tenLoop
    rw [if_neg (not_lt.mpr hexit)]
  | succ n ih =>
    intro b fuel hb hMb hfuel hinv
    obtain ⟨f, rfl⟩ : ∃ f, fuel = f + 1 := ⟨fuel - 1, by omega⟩
    by_cases hc : dl < ReductionCost._delta ((b + 10 : ℤ) : ℝ)
    · have hstep : ReductionCost.tenLoop dl (f + 1) b
          = if dl < ReductionCost._delta ((b + 10 : ℤ) : ℝ) then ReductionCost.tenLoop dl f (b + 10)
            else some b := rfl
      rw [hstep, if_pos hc]
      apply ih (b + 10) f (by omega) (by omega) (by omega)
      intro m hm40 hmlt
      exact le_trans (le_of_lt hc) (delta_int_anti (by omega))
    · refine ⟨b, ?_, hb, hinv⟩
      unfold ReductionCost.tenLoop
      rw [if_neg hc]

lemma oneLoop_spec (dl : ℝ) (M : ℤ) (hM : ReductionCost._delta ((M : ℤ) : ℝ) < dl) :
    ∀ (n : ℕ) (b : ℤ) (fuel : ℕ), 40 ≤ b → M ≤ b + n → n < fuel →
    (∀ m : ℤ, 40 ≤ m → m < b → dl ≤ ReductionCost._delta ((m : ℤ) : ℝ)) →
    ∃ b', ReductionCost.oneLoop dl fuel b = some b' ∧ 40 ≤ b' ∧
      (∀ m : ℤ, 40 ≤ m → m < b' → dl ≤ ReductionCost._delta ((m : ℤ) : ℝ)) ∧
      ReductionCost._delta ((b' : ℤ) : ℝ) < dl := by
  intro n
  induction n with
  | zero =>
    intro b fuel hb hMb hfuel hinv
    obtain ⟨f, rfl⟩ : ∃ f, fuel = f + 1 := ⟨fuel - 1, by omega⟩
    have hMb' : M ≤ b := by omega
    have hexit : ReductionCost._delta ((b : ℤ) : ℝ) < dl :=
      lt_of_le_of_lt (delta_int_anti (by omega)) hM
    refine ⟨b, ?_, hb, hinv, hexit⟩
    unfold ReductionCost.oneLoop
    rw [if_pos hexit]
  | succ n ih =>
    intro b fuel hb hMb hfuel hinv
    obtain ⟨f, rfl⟩ : ∃ f, fuel = f + 1 := ⟨fuel - 1, by omega⟩
    by_cases hc : ReductionCost._delta ((b : ℤ) : ℝ) < dl
    · refine ⟨b, ?_, hb, hinv, hc⟩
      unfold ReductionCost.oneLoop
      rw [if_pos hc]
    · have hstep : ReductionCost.oneLoop dl (f + 1) b
          = if ReductionCost._delta ((b : ℤ) : ℝ) < dl then some b
            else ReductionCost.oneLoop dl f (b + 1) := rfl
      rw [hstep, if_neg hc]
      apply ih (b + 1) f (by omega) (by omega) (by omega)
      intro m hm40 hmlt
      rcases lt_or_eq_of_le (by omega : m ≤ b) with h | h
      · exact hinv m hm40 h
      · rw [h]
        exact not_lt.mp hc

lemma beta_simple_terminates (dl : ℝ) (x0 : ℤ) (hx40 : 40 ≤ x0)
    (hx : ReductionCost._delta ((x0 : ℤ) : ℝ) < dl) (fuel : ℕ) (hfuel : x0.toNat < fuel) :
    ∃ b, ReductionCost._beta_simple fuel dl = some b ∧
      IsLeast {m : ℤ | 40 ≤ m ∧ ReductionCost._delta ((m : ℤ) : ℝ) < dl} b := by
  have hpow : (x0 : ℤ) ≤ 2 ^ x0.toNat * 40 := by
    have h1 : (x0.toNat : ℤ) < 2 ^ x0.toNat := by exact_mod_cast Nat.lt_two_pow x0.toNat
    have h2 : (1 : ℤ) ≤ 2 ^ x0.toNat := by exact_mod_cast Nat.one_le_two_pow
    nlinarith [h1, h2, Int.toNat_of_nonneg (by omega : (0:ℤ) ≤ x0)]
  obtain ⟨b1, hEq1, hb1, hInv1⟩ :=
    dblLoop_spec dl x0 (le_trans (delta_int_anti (by omega)) (le_of_lt hx))
      x0.toNat 40 fuel (by omega) hpow hfuel (by intro m h1 h2; omega)
  obtain ⟨b2, hEq2, hb2, hInv2⟩ :=
    tenLoop_spec dl x0 (le_of_lt hx) x0.toNat b1 fuel hb1
      (by have := Int.toNat_of_nonneg (by omega : (0:ℤ) ≤ x0); omega) hfuel hInv1
  obtain ⟨b3, hEq3, hb3, hInv3, hFin⟩ :=
    oneLoop_spec dl x0 hx x0.toNat b2 fuel hb2
      (by have := Int.toNat_of_nonneg (by omega : (0:ℤ) ≤ x0); omega) hfuel hInv2
  refine ⟨b3, ?_, ⟨hb3, hFin⟩, ?_⟩
  · unfold ReductionCost._beta_simple
    rw [hEq1]
    simp only [Option.some_bind]
    rw [hEq2]
    simp only [Option.some_bind]
    exact hEq3
  · rintro m ⟨hm40, hm⟩
    by_contra hcon
    push_neg at hcon
    exact absurd hm (not_lt.mpr (hInv3 m hm40 hcon))

lemma exists_delta_lt (dl : ℝ) (hdl : 1 < dl) :
    ∃ x0 : ℤ, 40 ≤ x0 ∧ ReductionCost._delta ((x0 : ℤ) : ℝ) < dl := by
  have hlog : 0 < Real.log dl := Real.log_pos hdl
  set c : ℝ := 16 / (Real.log dl) ^ 2 with hc
  obtain ⟨x0, hx0a, hx0b⟩ : ∃ x0 : ℤ, 41 ≤ x0 ∧ c < (x0 : ℝ) := by
    refine ⟨max 41 (⌈c⌉ + 1), le_max_left _ _, ?_⟩
    push_cast
    have h1 : c ≤ (⌈c⌉ : ℝ) := Int.le_ceil c
    have h2 := le_max_right (41 : ℝ) ((⌈c⌉ : ℝ) + 1)
    linarith
  refine ⟨x0, by omega, ?_⟩
  have hx41 : (41 : ℝ) ≤ ((x0 : ℤ) : ℝ) := by exact_mod_cast hx0a
  have hgt40 : (40 : ℝ) < ((x0 : ℤ) : ℝ) := by linarith
  rw [delta_eq_closedForm hgt40, closedForm_eq_exp (by linarith : (1 : ℝ) < ((x0 : ℤ) : ℝ))]
  set x : ℝ := ((x0 : ℤ) : ℝ) with hxdef
  have hx0' : (0 : ℝ) < x := by linarith
  have hs : 0 < Real.sqrt x := Real.sqrt_pos.mpr hx0'
  have hFf : Ff x < Real.log dl := by
    have hlogx : Real.log x ≤ 2 * Real.sqrt x := by
      have e1 : Real.log (Real.sqrt x) = Real.log x / 2 := Real.log_sqrt (le_of_lt hx0')
      have e2 : Real.log (Real.sqrt x) ≤ Real.sqrt x - 1 := Real.log_le_sub_one_of_pos hs
      nlinarith [e1, e2, hs]
    have hlx40 : (3.6794 : ℝ) ≤ Real.log x :=
      le_trans log_forty_gt (Real.log_le_log (by norm_num) (by linarith))
    have hNf : Nf x ≤ 2 * Real.log x := by
      unfold Nf
      have hA : 0 < Real.log 2 + Real.log π + 1 := by
        have := Real.log_two_gt_d9
        have := log_pi_gt
        linarith
      have hfrac : (Real.log π + Real.log x) / x ≤ Real.log x := by
        rw [div_le_iff hx0']
        have hp := log_pi_lt
        nlinarith [hlx40, hx41]
      linarith
    have h2x : (0 : ℝ) < 2 * (x - 1) := by linarith
    have hFle : Ff x ≤ Real.log x / (x - 1) := by
      unfold Ff
      have h1 : Nf x / (2 * (x - 1)) ≤ (2 * Real.log x) / (2 * (x - 1)) :=
        (div_le_div_iff_of_pos_right h2x).mpr hNf
      have h2 : (2 * Real.log x) / (2 * (x - 1)) = Real.log x / (x - 1) :=
        mul_div_mul_left _ _ (two_ne_zero)
      linarith [h1, h2.le, h2.ge]
    have hstep1 : Real.log x / (x - 1) ≤ 2 * Real.sqrt x / (x - 1) :=
      (div_le_div_right (by linarith : (0:ℝ) < x - 1)).mpr hlogx
    have hstep2 : 2 * Real.sqrt x / (x - 1) ≤ 4 / Real.sqrt x := by
      rw [div_le_div_iff (by linarith : (0:ℝ) < x - 1) hs]
      have hss : Real.sqrt x * Real.sqrt x = x := Real.mul_self_sqrt (le_of_lt hx0')
      nlinarith [hss, hx41]
    have hstep3 : 4 / Real.sqrt x < Real.log dl := by
      have hsx : 4 / Real.log dl < Real.sqrt x := by
        rw [Real.lt_sqrt (by positivity)]
        have he : (4 / Real.log dl) ^ 2 = c := by
          rw [hc]
          field_simp
          norm_num
        rw [he]
        exact hx0b
      have h4 : 4 / Real.sqrt x < 4 / (4 / Real.log dl) :=
        div_lt_div_of_pos_left (by norm_num) (by positivity) hsx
      have h5 : (4 : ℝ) / (4 / Real.log dl) = Real.log dl := by
        field_simp
      linarith
    linarith
  calc exp (Ff x) < exp (Real.log dl) := Real.exp_lt_exp.mpr hFf
    _ = dl := Real.exp_log (by linarith : (0 : ℝ) < dl)

/-- C3: for every real δ > 1 the fallback search `_beta_simple` terminates
(some fuel bound suffices, and any larger fuel returns the same answer) and
returns the least integer `β ≥ 40` with `_delta(β) < δ`; consequently `beta`
(with the external root-finder modelled by any outcome `rf`) never fails
for δ > 1. -/
theorem beta_simple_fallback (dl : ℝ) (hdl : 1 < dl) :
    ∃ b : ℤ, IsLeast {m : ℤ | 40 ≤ m ∧ ReductionCost._delta ((m : ℤ) : ℝ) < dl} b ∧
      (∃ fuel0 : ℕ, ∀ fuel : ℕ, fuel0 ≤ fuel → ReductionCost._beta_simple fuel dl = some b) ∧
      (∀ rf : Option ℝ, ∃ (fuel : ℕ) (result : ℤ),
        ReductionCost.beta rf fuel dl = some result) := by
  obtain ⟨x0, hx40, hx⟩ := exists_delta_lt dl hdl
  obtain ⟨b, hbeq, hbleast⟩ :=
    beta_simple_terminates dl x0 hx40 hx (x0.toNat + 1) (by omega)
  refine ⟨b, hbleast, ⟨x0.toNat + 1, fun fuel hfuel => ?_⟩, fun rf => ?_⟩
  · obtain ⟨b', hbeq', hbleast'⟩ := beta_simple_terminates dl x0 hx40 hx fuel (by omega)
    rw [hbeq', hbleast'.unique hbleast]
  · by_cases hc : ReductionCost._delta ((40 : ℤ) : ℝ) < dl
    · refine ⟨x0.toNat + 1, 40, ?_⟩
      unfold ReductionCost.beta ReductionCost._beta_find_root
      rw [if_pos hc]
    · rcases rf with _ | r
      · refine ⟨x0.toNat + 1, b, ?_⟩
        unfold ReductionCost.beta ReductionCost._beta_find_root
        rw [if_neg hc]
        exact hbeq
      · refine ⟨x0.toNat + 1, ⌈r - 1e-8⌉, ?_⟩
        unfold ReductionCost.beta ReductionCost._beta_find_root
        rw [if_neg hc]

/-- C3 witness at `δ = 1.5`. -/
theorem beta_simple_fallback_witness :
    ∃ b : ℤ, IsLeast {m : ℤ | 40 ≤ m ∧ ReductionCost._delta ((m : ℤ) : ℝ) < (1.5 : ℝ)} b ∧
      (∃ fuel0 : ℕ, ∀ fuel : ℕ, fuel0 ≤ fuel →
        ReductionCost._beta_simple fuel (1.5 : ℝ) = some b) ∧
      (∀ rf : Option ℝ, ∃ (fuel : ℕ) (result : ℤ),
        ReductionCost.beta rf fuel (1.5 : ℝ) = some result) :=
  beta_simple_fallback 1.5 (by norm_num)

lemma root_eq (beta : ℤ) (hb : 40 ≤ beta) (x : ℝ) (hx1 : (40 : ℝ) ≤ x)
    (heq : ReductionCost._delta x = ReductionCost._delta ((beta : ℤ) : ℝ)) :
    x = ((beta : ℤ) : ℝ) := by
  have hbr : (40 : ℝ) ≤ ((beta : ℤ) : ℝ) := by exact_mod_cast hb
  rcases eq_or_lt_of_le hx1 with hx40 | hx40
  · rcases eq_or_lt_of_le hbr with hb40 | hb40
    · rw [← hx40, ← hb40]
    · exfalso
      rw [← hx40, delta_at_40] at heq
      have := delta_lt_of_gt40 hb40
      linarith [heq.ge]
  · rcases eq_or_lt_of_le hbr with hb40 | hb40
    · exfalso
      rw [← hb40, delta_at_40] at heq
      have := delta_lt_of_gt40 hx40
      linarith
    · have h1 : ReductionCost.closedForm x = ReductionCost.closedForm ((beta : ℤ) : ℝ) := by
        rw [← delta_eq_closedForm hx40, ← delta_eq_closedForm hb40]
        exact heq
      exact closedForm_strictAntiOn.injOn (Set.mem_Ici.mpr hx1) (Set.mem_Ici.mpr hbr) h1

/-- C2 (amended): for integers `40 ≤ β ≤ 2¹⁶`, whenever the external bracketing
root-finder succeeds — i.e. returns an `r` within `10⁻⁹` of a root of
`x ↦ _delta(x) − delta(β)` on the bracket `[40, 2¹⁶]` (Brent's method with the
source's tolerances does, since the unique root is `β` itself and `f(40) ≥ 0 ≥
f(2¹⁶)` there) — `beta(delta(β)) = ceil(root − 1e-8) = β`. -/
theorem beta_delta_round_trip (beta : ℤ) (r : ℝ) (fuel : ℕ) (h40 : 40 ≤ beta)
    (h65536 : beta ≤ 65536)
    (hroot : ∃ x : ℝ, x ∈ Set.Icc (40 : ℝ) 65536 ∧
      ReductionCost._delta x = ReductionCost.delta ((beta : ℤ) : ℝ) ∧ |r - x| ≤ 1e-9) :
    ReductionCost.beta (some r) fuel (ReductionCost.delta ((beta : ℤ) : ℝ)) = some beta := by
  have hδ : ReductionCost.delta ((beta : ℤ) : ℝ) = ReductionCost._delta ((beta : ℤ) : ℝ) := by
    unfold ReductionCost.delta
    rw [round_intCast]
  obtain ⟨x, hxmem, hxeq, hxr⟩ := hroot
  rw [hδ] at hxeq ⊢
  have hx_eq_beta : x = ((beta : ℤ) : ℝ) := root_eq beta h40 x hxmem.1 hxeq
  rw [hx_eq_beta] at hxr
  have hnc : ¬ ReductionCost._delta ((40 : ℤ) : ℝ) < ReductionCost._delta ((beta : ℤ) : ℝ) :=
    not_lt.mpr (delta_int_anti h40)
  unfold ReductionCost.beta ReductionCost._beta_find_root
  rw [if_neg hnc]
  show some ⌈r - 1e-8⌉ = some beta
  congr 1
  rw [Int.ceil_eq_iff]
  have habs := abs_le.mp hxr
  constructor
  · linarith [habs.1]
  · linarith [habs.2]

/-- C2 witness at `β = 41` with the root-finder returning the exact root `41`. -/
theorem beta_delta_round_trip_witness :
    ReductionCost.beta (some ((41 : ℤ) : ℝ)) 0 (ReductionCost.delta ((41 : ℤ) : ℝ)) = some 41 :=
  beta_delta_round_trip 41 ((41 : ℤ) : ℝ) 0 (by norm_num) (by norm_num)
    ⟨((41 : ℤ) : ℝ), by constructor <;> norm_num [ReductionCost.delta, Set.mem_Icc]⟩

/-- C2 counterexample: at `β = 65537` (above the bracket's upper end `2¹⁶`)
the function `x ↦ _delta(x) − delta(β)` has no root in `[40, 2¹⁶]`, the
root-finder signals failure (`rf = none`) and `beta(delta(65537))` falls back
to `_beta_simple`, returning `65538 ≠ 65537`. -/
theorem beta_delta_round_trip_counterexample :
    ReductionCost.beta none 1000000 (ReductionCost.delta ((65537 : ℤ) : ℝ)) = some 65538 ∧
      (65538 : ℤ) ≠ 65537 := by
  have hδ : ReductionCost.delta ((65537 : ℤ) : ℝ)
      = ReductionCost._delta ((65537 : ℤ) : ℝ) := by
    unfold ReductionCost.delta
    rw [round_intCast]
  have h1 : ReductionCost._delta ((65538 : ℤ) : ℝ)
      < ReductionCost._delta ((65537 : ℤ) : ℝ) := by
    apply delta_strictAnti_ge40 (by norm_num) (by norm_num)
  obtain ⟨b, hbeq, hbleast⟩ :=
    beta_simple_terminates (ReductionCost._delta ((65537 : ℤ) : ℝ)) 65538 (by norm_num) h1
      1000000 (by norm_num [Int.toNat_ofNat])
  have hleast2 : IsLeast {m : ℤ | 40 ≤ m ∧
      ReductionCost._delta ((m : ℤ) : ℝ) < ReductionCost._delta ((65537 : ℤ) : ℝ)} 65538 := by
    constructor
    · exact ⟨by norm_num, h1⟩
    · rintro m ⟨hm40, hmlt⟩
      by_contra hcon
      push_neg at hcon
      have := delta_int_anti (by omega : m ≤ 65537)
      linarith
  have hb : b = 65538 := hbleast.unique hleast2
  refine ⟨?_, by norm_num⟩
  rw [hδ]
  unfold ReductionCost.beta ReductionCost._beta_find_root
  rw [if_neg (not_lt.mpr (delta_int_anti (by norm_num : (40 : ℤ) ≤ 65537)))]
  rw [hbeq, hb]
